import Mathlib

/-!
Verification development for the documented-field-names repository.

The repository is a compile-time declaration metadata extractor: derive
macros collect the doc-comment fragments of a declaration, normalize them
under a resolved configuration, and generate name-keyed lookup code.

Text is modelled as lists of characters (`Str`). The macro-generated code
is embedded as pure functions over an explicit description of the analyzed
declaration (its members, their doc fragments, and the configuration
directives found at each scope), mirroring `src/documented-macros/src/lib.rs`
and `src/proc-macro/src/lib.rs`. The helper modules `config` and `util`
(notably `get_docs` and the runtime trait method `get_field_docs`) are not
part of the given sources and are modelled from the spec where noted.
-/

namespace DocumentedFieldNames

/-- Documentation text, one fragment or one normalized output string. -/
abbrev Str := List Char

/-- ASCII whitespace, as stripped by the trim policy (spec section 4.2):
space, tab, newline, carriage return, form feed. -/
def isAsciiWs (c : Char) : Bool :=
  c = ' ' || c = '\t' || c = '\n' || c = '\r' || c = '\x0C'

/-- Strip leading ASCII whitespace from one line. -/
def trimStart (l : Str) : Str := l.dropWhile isAsciiWs

/-- Strip trailing ASCII whitespace from one line. -/
def trimEnd (l : Str) : Str := (l.reverse.dropWhile isAsciiWs).reverse

/-- Strip leading and trailing ASCII whitespace from one line; the embedding
of the Rust trim applied per line (current derive) or per literal (legacy). -/
def trimStr (l : Str) : Str := trimEnd (trimStart l)

/-- Unicode White_Space, the character class stripped by the Rust str trim
used in the legacy derive (src/proc-macro/src/lib.rs line 24): the ASCII
whitespace range U+0009 to U+000D and U+0020, plus NEL, NBSP, OGHAM SPACE
MARK, the U+2000 to U+200A spaces, LINE SEPARATOR, PARAGRAPH SEPARATOR,
NARROW NO-BREAK SPACE, MEDIUM MATHEMATICAL SPACE and IDEOGRAPHIC SPACE. -/
def isUnicodeWs (c : Char) : Bool :=
  (0x09 ≤ c.toNat && c.toNat ≤ 0x0D) || c = ' ' ||
  c.toNat = 0x85 || c.toNat = 0xA0 || c.toNat = 0x1680 ||
  (0x2000 ≤ c.toNat && c.toNat ≤ 0x200A) ||
  c.toNat = 0x2028 || c.toNat = 0x2029 || c.toNat = 0x202F ||
  c.toNat = 0x205F || c.toNat = 0x3000

/-- Strip leading Unicode whitespace, as the legacy whole-literal trim. -/
def trimStartU (l : Str) : Str := l.dropWhile isUnicodeWs

/-- Strip trailing Unicode whitespace, as the legacy whole-literal trim. -/
def trimEndU (l : Str) : Str := (l.reverse.dropWhile isUnicodeWs).reverse

/-- The whole-literal trim of the legacy derive: Rust str trim, stripping
Unicode whitespace from both ends of the complete literal. -/
def trimUnicode (l : Str) : Str := trimEndU (trimStartU l)

/-- Split a text on a separator character; mirrors the split used to
linearize multi-line doc fragments into lines. Always nonempty. -/
def splitOnChar (sep : Char) : Str → List Str
  | [] => [[]]
  | c :: rest =>
    if c = sep then [] :: splitOnChar sep rest
    else
      match splitOnChar sep rest with
      | [] => [[c]]
      | h :: t => (c :: h) :: t

/-- Join texts with a separator character; mirrors the join with a newline
separator used by normalization. -/
def joinWith (sep : Char) : List Str → Str
  | [] => []
  | [l] => l
  | l :: l2 :: rest => l ++ sep :: joinWith sep (l2 :: rest)

/-- Linearize the ordered doc fragments of one declaration into its ordered
sequence of text lines (spec section 4.1, Fragment Collector). -/
def linesOf (frags : List Str) : List Str :=
  (frags.map (splitOnChar '\n')).flatten

/-- Modelled from the spec: `util::get_docs`, the Text Normalizer, is not in
the given sources. Per spec section 4.2: output is `None` when the fragment
sequence is empty; with `trim = true` each line is trimmed independently and
the lines are joined with a newline; with `trim = false` the fragments are
joined verbatim. -/
def get_docs (frags : List Str) (trim : Bool) : Option Str :=
  match frags with
  | [] => none
  | _ :: _ =>
    some (if trim then joinWith '\n' ((linesOf frags).map trimStr)
          else joinWith '\n' frags)

/-- Visibility tag for the derived binding of single-item mode. -/
inductive Vis where
  | inherited
  | pub
  | pubCrate
deriving DecidableEq

/-- Resolved configuration (spec section 3): trim flag, optional default
text, optional custom binding name, optional custom visibility. -/
structure Config where
  trim : Bool
  default_text : Option Str
  custom_name : Option Str
  custom_vis : Option Vis
deriving DecidableEq

/-- Modelled from the spec: the directive set one scope may supply, any
subset of the configuration keys (the `config` module is not in the given
sources). An unset key is `none`. -/
structure Customisations where
  trim : Option Bool
  default_text : Option Str
  custom_name : Option Str
  custom_vis : Option Vis
deriving DecidableEq

/-- Per-field override: a key set in the higher-precedence scope wins,
an unset key keeps the lower value. -/
def mergeOpt {α : Type} : Option α → Option α → Option α
  | some v, _ => some v
  | none, lo => lo

/-- Modelled from the spec: per-field left-to-right override merge of a
partial scope into a resolved configuration (spec sections 3 and 4.3). -/
def Config.with_customisations (c : Config) (p : Customisations) : Config :=
  { trim := p.trim.getD c.trim
    default_text := mergeOpt p.default_text c.default_text
    custom_name := mergeOpt p.custom_name c.custom_name
    custom_vis := mergeOpt p.custom_vis c.custom_vis }

/-- Built-in Default scope configuration (spec section 3). -/
def defaultConfig : Config :=
  { trim := true, default_text := none, custom_name := none, custom_vis := none }

/-- Empty directive list: a scope that sets nothing. -/
def noCustomise : Customisations :=
  { trim := none, default_text := none, custom_name := none, custom_vis := none }

/-- Full resolution for one member: Default, then Container, then Member. -/
def resolve (c m : Customisations) : Config :=
  (defaultConfig.with_customisations c).with_customisations m

/-- Query-time error kinds of the runtime lookup (the `Error` enum of the
documented crate, observable in the generated code and the tests). -/
inductive DocError where
  | noSuchField (name : Str)
  | noDocComments (name : Str)
deriving DecidableEq

/-- Analysis-time failure of the derivation entry points. -/
inductive DeriveError where
  | missingDocumentation
deriving DecidableEq

/-- One member of a positionally-discriminated container as seen by the
`documented_fields` macro: optional identifier (tuple fields have none),
raw doc fragments, member-scope directives. -/
structure FieldInput where
  name : Option Str
  frags : List Str
  customise : Customisations
deriving DecidableEq

/-- Per-field resolved documentation, mirroring
`get_docs(&attrs, config.trim)` in `documented_fields` where the per-field
config is the container-resolved base overridden by the member scope. -/
def fieldDoc (base : Config) (f : FieldInput) : Option Str :=
  get_docs f.frags (base.with_customisations f.customise).trim

/-- The generated `FIELD_DOCS` constant: the declaration-ordered sequence of
optional documentation strings, one per member, unnamed members included. -/
def field_docs (base : Config) (fs : List FieldInput) : List (Option Str) :=
  fs.map (fieldDoc base)

/-- The generated perfect-hash entries: enumerate all members, keep the
named ones, map each name to its declaration position. -/
def phf_entries : Nat → List FieldInput → List (Str × Nat)
  | _, [] => []
  | i, f :: rest =>
    match f.name with
    | some n => (n, i) :: phf_entries (i + 1) rest
    | none => phf_entries (i + 1) rest

/-- First-match association lookup over the perfect-hash entries. -/
def lookupName : List (Str × Nat) → Str → Option Nat
  | [], _ => none
  | (k, v) :: rest, n => if k = n then some v else lookupName rest n

/-- The generated `__documented_get_index`: name to declaration position. -/
def documented_get_index (fs : List FieldInput) (name : Str) : Option Nat :=
  lookupName (phf_entries 0 fs) name

/-- Modelled from the spec: the runtime trait method `get_field_docs` (not
in the given sources) resolves the index, then reads `FIELD_DOCS`; an absent
name fails with `NoSuchField`, a present name without documentation fails
with `NoDocComments` (spec section 4.4). -/
def get_field_docs (base : Config) (fs : List FieldInput) (name : Str) :
    Except DocError Str :=
  match documented_get_index fs name with
  | none => .error (.noSuchField name)
  | some i =>
    match (field_docs base fs)[i]? with
    | some (some d) => .ok d
    | some none => .error (.noDocComments name)
    | none => .error (.noDocComments name)

/-- One variant of a tag-discriminated container as seen by the
`documented_variants` macro. -/
structure VariantInput where
  name : Str
  frags : List Str
  customise : Customisations
deriving DecidableEq

/-- Per-variant resolved documentation, mirroring
`get_docs(&attrs, config.trim)` in `documented_variants`. -/
def variantDoc (base : Config) (v : VariantInput) : Option Str :=
  get_docs v.frags (base.with_customisations v.customise).trim

/-- Result of the single match arm generated for one variant:
`Ok(docs)` when documented, else `Err(NoDocComments(name))`. -/
def arm_result (base : Config) (v : VariantInput) : Except DocError Str :=
  match variantDoc base v with
  | some d => .ok d
  | none => .error (.noDocComments v.name)

/-- The generated decision table: one arm per declared variant, keyed by the
variant tag (its declaration position). -/
def arms_from (base : Config) : Nat → List VariantInput → List (Nat × Except DocError Str)
  | _, [] => []
  | i, v :: rest => (i, arm_result base v) :: arms_from base (i + 1) rest

/-- The match arms of the generated `get_variant_docs`. -/
def match_arms (base : Config) (vs : List VariantInput) : List (Nat × Except DocError Str) :=
  arms_from base 0 vs

/-- Sequential first-match evaluation of the decision table. -/
def lookup_arm : List (Nat × Except DocError Str) → Nat → Option (Except DocError Str)
  | [], _ => none
  | (t, r) :: rest, tag => if t = tag then some r else lookup_arm rest tag

/-- The generated `get_variant_docs`, applied to an enum value given by its
variant tag: evaluate the decision table on that tag. `none` would mean no
arm matched, which exhaustiveness must rule out. -/
def get_variant_docs (base : Config) (vs : List VariantInput) (tag : Nat) :
    Option (Except DocError Str) :=
  lookup_arm (match_arms base vs) tag

/-- The current `Documented` derive entry point
(src/documented-macros/src/lib.rs, `documented`): resolve the container
configuration, normalize, fail with a missing-documentation error when the
fragment sequence is empty. -/
def documented (frags : List Str) (cust : Customisations) : Except DeriveError Str :=
  match get_docs frags (defaultConfig.with_customisations cust).trim with
  | some d => .ok d
  | none => .error .missingDocumentation

/-- The legacy `Documented` derive (src/proc-macro/src/lib.rs): trim each
collected string literal as a whole with the Rust str trim, which strips
Unicode whitespace, then join with newline; error when no literal was
found. -/
def legacy_documented (frags : List Str) : Except DeriveError Str :=
  match frags with
  | [] => .error .missingDocumentation
  | _ :: _ => .ok (joinWith '\n' (frags.map trimUnicode))

/-- Split one word chunk at lower-to-upper case boundaries. -/
def camelSplitGo (prev : Char) (acc : Str) : Str → List Str
  | [] => [acc.reverse]
  | c :: rest =>
    if prev.isLower && c.isUpper then acc.reverse :: camelSplitGo c [c] rest
    else camelSplitGo c (c :: acc) rest

/-- Word split of one underscore-free chunk. -/
def camelSplit : Str → List Str
  | [] => []
  | c :: rest => camelSplitGo c [c] rest

/-- Modelled from the spec: the case-conversion helper of single-item mode
(the convert-case dependency, out of scope per spec sections 1 and 9):
split on word boundaries (underscores and lower-to-upper transitions),
upper-case every word, join with underscores. -/
def toScreamingSnake (name : Str) : Str :=
  joinWith '_'
    ((((splitOnChar '_' name).map camelSplit).flatten.filter (fun w => !w.isEmpty)).map
      (fun w => w.map Char.toUpper))

/-- The single item processed by the `docs_const` attribute macro: its own
visibility, its name, its doc fragments. -/
structure ItemInput where
  vis : Vis
  name : Str
  frags : List Str
deriving DecidableEq

/-- The `docs_const` entry point (src/documented-macros/src/lib.rs):
normalize the docs (failing when absent), then emit a constant whose
visibility defaults to the item visibility and whose name defaults to the
upper-snake item name suffixed with _DOCS, both overridable by directives. -/
def docs_const (item : ItemInput) (cust : Customisations) :
    Except DeriveError (Vis × Str × Str) :=
  let config := defaultConfig.with_customisations cust
  match get_docs item.frags config.trim with
  | none => .error .missingDocumentation
  | some docs =>
    let const_vis := config.custom_vis.getD item.vis
    let const_name := config.custom_name.getD (toScreamingSnake item.name ++ ("_DOCS").toList)
    .ok (const_vis, const_name, docs)

/-- Declared member names of a container, in declaration order. -/
def declared_names (fs : List FieldInput) : List Str :=
  fs.filterMap (fun f => f.name)

/-- Edge-whitespace freedom of one line: neither its first nor its last
character is ASCII whitespace. -/
def noEdgeWs (l : Str) : Bool :=
  (l.head?.all fun c => !isAsciiWs c) && (l.getLast?.all fun c => !isAsciiWs c)

/-! Lemmas about splitting and joining lines. -/

lemma splitOnChar_ne_nil (sep : Char) (l : Str) : splitOnChar sep l ≠ [] := by
  induction l with
  | nil => simp [splitOnChar]
  | cons c rest ih =>
    simp only [splitOnChar]
    split
    · simp
    · split <;> simp

lemma mem_splitOnChar_not_sep (sep : Char) (l : Str) :
    ∀ p ∈ splitOnChar sep l, sep ∉ p := by
  induction l with
  | nil =>
    intro p hp
    simp only [splitOnChar, List.mem_singleton] at hp
    subst hp; simp
  | cons c rest ih =>
    intro p hp
    simp only [splitOnChar] at hp
    by_cases hc : c = sep
    · rw [if_pos hc] at hp
      rcases List.mem_cons.mp hp with h1 | h1
      · subst h1; simp
      · exact ih p h1
    · rw [if_neg hc] at hp
      cases hsp : splitOnChar sep rest with
      | nil => exact absurd hsp (splitOnChar_ne_nil sep rest)
      | cons hd tl =>
        rw [hsp] at hp
        rcases List.mem_cons.mp hp with h1 | h1
        · subst h1
          intro hmem
          rcases List.mem_cons.mp hmem with h2 | h2
          · exact hc h2.symm
          · exact ih hd (by rw [hsp]; exact List.mem_cons_self hd tl) h2
        · exact ih p (by rw [hsp]; exact List.mem_cons_of_mem hd h1)

lemma splitOnChar_eq_single (sep : Char) (l : Str) (hl : sep ∉ l) :
    splitOnChar sep l = [l] := by
  induction l with
  | nil => rfl
  | cons c rest ih =>
    have hc : ¬ c = sep := fun h => hl (by rw [h]; exact List.mem_cons_self sep rest)
    have hrest : sep ∉ rest := fun h => hl (List.mem_cons_of_mem c h)
    simp only [splitOnChar, if_neg hc, ih hrest]

lemma splitOnChar_append_sep (sep : Char) (l rest : Str) (hl : sep ∉ l) :
    splitOnChar sep (l ++ sep :: rest) = l :: splitOnChar sep rest := by
  induction l with
  | nil => simp [splitOnChar]
  | cons c l2 ih =>
    have hc : ¬ c = sep := fun h => hl (by rw [h]; exact List.mem_cons_self sep l2)
    have hl2 : sep ∉ l2 := fun h => hl (List.mem_cons_of_mem c h)
    show splitOnChar sep (c :: (l2 ++ sep :: rest)) = (c :: l2) :: splitOnChar sep rest
    simp only [splitOnChar, if_neg hc]
    rw [ih hl2]

lemma joinWith_splitOnChar (sep : Char) (l : Str) :
    joinWith sep (splitOnChar sep l) = l := by
  induction l with
  | nil => rfl
  | cons c rest ih =>
    simp only [splitOnChar]
    by_cases hc : c = sep
    · rw [if_pos hc]
      cases hsp : splitOnChar sep rest with
      | nil => exact absurd hsp (splitOnChar_ne_nil sep rest)
      | cons h2 t2 =>
        rw [hsp] at ih
        subst hc
        simpa [joinWith] using ih
    · rw [if_neg hc]
      cases hsp : splitOnChar sep rest with
      | nil => exact absurd hsp (splitOnChar_ne_nil sep rest)
      | cons h2 t2 =>
        rw [hsp] at ih
        cases t2 with
        | nil =>
          simp only [joinWith] at ih ⊢
          rw [ih]
        | cons t3 ts =>
          simp only [joinWith, List.cons_append] at ih ⊢
          rw [ih]

lemma joinWith_append (sep : Char) (xs ys : List Str) (hx : xs ≠ []) (hy : ys ≠ []) :
    joinWith sep (xs ++ ys) = joinWith sep xs ++ sep :: joinWith sep ys := by
  induction xs with
  | nil => exact absurd rfl hx
  | cons x xs2 ih =>
    cases xs2 with
    | nil =>
      cases ys with
      | nil => exact absurd rfl hy
      | cons y ys2 => simp [joinWith]
    | cons x2 xs3 =>
      have hrec := ih (List.cons_ne_nil x2 xs3)
      simp only [List.cons_append] at hrec ⊢
      calc joinWith sep (x :: x2 :: (xs3 ++ ys))
          = x ++ sep :: joinWith sep (x2 :: (xs3 ++ ys)) := by simp [joinWith]
        _ = x ++ sep :: (joinWith sep (x2 :: xs3) ++ sep :: joinWith sep ys) := by rw [hrec]
        _ = (x ++ sep :: joinWith sep (x2 :: xs3)) ++ sep :: joinWith sep ys := by simp
        _ = joinWith sep (x :: x2 :: xs3) ++ sep :: joinWith sep ys := by simp [joinWith]

lemma splitOnChar_joinWith (sep : Char) (ls : List Str) (hne : ls ≠ [])
    (hns : ∀ p ∈ ls, sep ∉ p) :
    splitOnChar sep (joinWith sep ls) = ls := by
  induction ls with
  | nil => exact absurd rfl hne
  | cons l ls2 ih =>
    cases ls2 with
    | nil =>
      simp only [joinWith]
      exact splitOnChar_eq_single sep l (hns l (List.mem_cons_self l []))
    | cons l2 ls3 =>
      have h1 : sep ∉ l := hns l (List.mem_cons_self l _)
      have h2 : ∀ p ∈ l2 :: ls3, sep ∉ p := fun p hp => hns p (List.mem_cons_of_mem l hp)
      simp only [joinWith]
      rw [splitOnChar_append_sep sep l _ h1, ih (List.cons_ne_nil l2 ls3) h2]

lemma flatten_map_singleton (l : List Str) : (l.map fun a => [a]).flatten = l := by
  induction l with
  | nil => rfl
  | cons a l2 ih => simp [ih]

/-! Lemmas about trimming. -/

lemma head?_dropWhile_ws (l : Str) (c : Char)
    (h : (l.dropWhile isAsciiWs).head? = some c) : isAsciiWs c = false := by
  have hm := List.head?_dropWhile_not isAsciiWs l
  rw [h] at hm
  exact hm

lemma dropWhile_decomp (p : Char → Bool) (l : Str) : ∃ s, s ++ l.dropWhile p = l :=
  List.dropWhile_suffix p

lemma trimEnd_decomp (l : Str) : ∃ t, trimEnd l ++ t = l := by
  obtain ⟨s, hs⟩ := dropWhile_decomp isAsciiWs l.reverse
  refine ⟨s.reverse, ?_⟩
  have hrev : (s ++ l.reverse.dropWhile isAsciiWs).reverse = l.reverse.reverse := by
    rw [hs]
  simpa [List.reverse_append, trimEnd] using hrev

lemma mem_trimStart (c : Char) (l : Str) (h : c ∈ trimStart l) : c ∈ l := by
  obtain ⟨s, hs⟩ := dropWhile_decomp isAsciiWs l
  rw [← hs]
  exact List.mem_append_right s h

lemma mem_trimEnd (c : Char) (l : Str) (h : c ∈ trimEnd l) : c ∈ l := by
  simp only [trimEnd, List.mem_reverse] at h
  obtain ⟨s, hs⟩ := dropWhile_decomp isAsciiWs l.reverse
  have : c ∈ l.reverse := by
    rw [← hs]
    exact List.mem_append_right s h
  exact List.mem_reverse.mp this

lemma mem_trimStr (c : Char) (l : Str) (h : c ∈ trimStr l) : c ∈ l :=
  mem_trimStart c l (mem_trimEnd c (trimStart l) h)

lemma noEdgeWs_trimStr (l : Str) : noEdgeWs (trimStr l) = true := by
  rw [noEdgeWs, Bool.and_eq_true]
  constructor
  · cases hh : (trimStr l).head? with
    | none => rfl
    | some c =>
      simp only [Option.all_some]
      obtain ⟨t, ht⟩ := trimEnd_decomp (trimStart l)
      have hcons : ∃ z, trimStr l = c :: z := by
        cases hts : trimStr l with
        | nil => rw [hts] at hh; exact absurd hh (by simp)
        | cons c0 z =>
          rw [hts] at hh
          simp only [List.head?_cons, Option.some.injEq] at hh
          exact ⟨z, by rw [hh]⟩
      obtain ⟨z, hz⟩ := hcons
      have hstart : (trimStart l).head? = some c := by
        rw [trimStr] at hz
        rw [← ht, hz]
        rfl
      have := head?_dropWhile_ws l c hstart
      simp [this]
  · cases hh : (trimStr l).getLast? with
    | none => rfl
    | some c =>
      simp only [Option.all_some]
      have hrw : (trimStr l).getLast? = ((trimStart l).reverse.dropWhile isAsciiWs).head? := by
        rw [trimStr, trimEnd, List.getLast?_reverse]
      rw [hrw] at hh
      have hws : isAsciiWs c = false := by
        have hm := List.head?_dropWhile_not isAsciiWs (trimStart l).reverse
        rw [hh] at hm
        exact hm
      simp [hws]

/-! Lemmas about linearized lines. -/

lemma linesOf_ne_nil (frags : List Str) (h : frags ≠ []) : linesOf frags ≠ [] := by
  cases frags with
  | nil => exact absurd rfl h
  | cons f fr =>
    have hne := splitOnChar_ne_nil '\n' f
    simp only [linesOf, List.map_cons, List.flatten_cons]
    intro hc
    exact hne (List.append_eq_nil.mp hc).1

lemma linesOf_no_nl (frags : List Str) : ∀ p ∈ linesOf frags, '\n' ∉ p := by
  intro p hp
  simp only [linesOf] at hp
  rw [List.mem_flatten] at hp
  obtain ⟨l, hl, hpl⟩ := hp
  rw [List.mem_map] at hl
  obtain ⟨f, _, rfl⟩ := hl
  exact mem_splitOnChar_not_sep '\n' f p hpl

lemma joinWith_linesOf (frags : List Str) :
    joinWith '\n' (linesOf frags) = joinWith '\n' frags := by
  induction frags with
  | nil => rfl
  | cons f fr ih =>
    cases fr with
    | nil =>
      simp only [linesOf, List.map_cons, List.map_nil, List.flatten_cons,
        List.flatten_nil, List.append_nil]
      rw [joinWith_splitOnChar]
      simp [joinWith]
    | cons f2 fr2 =>
      have h1 : splitOnChar '\n' f ≠ [] := splitOnChar_ne_nil _ _
      have h2 : linesOf (f2 :: fr2) ≠ [] := linesOf_ne_nil _ (List.cons_ne_nil f2 fr2)
      have hsplit : linesOf (f :: f2 :: fr2) = splitOnChar '\n' f ++ linesOf (f2 :: fr2) := by
        simp [linesOf]
      rw [hsplit, joinWith_append _ _ _ h1 h2, joinWith_splitOnChar, ih]
      simp [joinWith]

/-! Lemmas about the positional index. -/

lemma mem_declared_of_get (fs : List FieldInput) (j : Nat) (f : FieldInput) (n : Str)
    (hj : fs[j]? = some f) (hn : f.name = some n) : n ∈ declared_names fs := by
  induction fs generalizing j with
  | nil => simp at hj
  | cons f0 rest ih =>
    cases j with
    | zero =>
      simp only [List.getElem?_cons_zero, Option.some.injEq] at hj
      subst hj
      simp [declared_names, List.filterMap_cons, hn]
    | succ j2 =>
      have hj2 : rest[j2]? = some f := by simpa using hj
      have hmem := ih j2 hj2
      cases hb : f0.name with
      | none => simpa [declared_names, List.filterMap_cons, hb] using hmem
      | some m =>
        simp only [declared_names, List.filterMap_cons, hb]
        exact List.mem_cons_of_mem m (by simpa [declared_names] using hmem)

lemma lookup_phf_none (fs : List FieldInput) (n : Str) (i : Nat)
    (h : n ∉ declared_names fs) : lookupName (phf_entries i fs) n = none := by
  induction fs generalizing i with
  | nil => rfl
  | cons f0 rest ih =>
    cases hb : f0.name with
    | none =>
      have h2 : n ∉ declared_names rest := by
        simpa [declared_names, List.filterMap_cons, hb] using h
      simp only [phf_entries, hb]
      exact ih (i + 1) h2
    | some m =>
      have hmn : ¬ m = n := by
        intro he
        exact h (by simp [declared_names, List.filterMap_cons, hb, he])
      have h2 : n ∉ declared_names rest := by
        intro hc
        exact h (by
          simp only [declared_names, List.filterMap_cons, hb]
          exact List.mem_cons_of_mem m (by simpa [declared_names] using hc))
      simp only [phf_entries, hb, lookupName, if_neg hmn]
      exact ih (i + 1) h2

lemma lookup_phf_some (fs : List FieldInput) (n : Str) (f : FieldInput)
    (hn : f.name = some n) (i j : Nat)
    (hnd : (declared_names fs).Nodup) (hj : fs[j]? = some f) :
    lookupName (phf_entries i fs) n = some (i + j) := by
  induction fs generalizing i j with
  | nil => simp at hj
  | cons f0 rest ih =>
    cases j with
    | zero =>
      simp only [List.getElem?_cons_zero, Option.some.injEq] at hj
      have hb : f0.name = some n := by rw [hj, hn]
      simp [phf_entries, hb, lookupName]
    | succ j2 =>
      have hj2 : rest[j2]? = some f := by simpa using hj
      cases hb : f0.name with
      | none =>
        have hnd2 : (declared_names rest).Nodup := by
          simpa [declared_names, List.filterMap_cons, hb] using hnd
        have hrec := ih (i + 1) j2 hnd2 hj2
        have harith : i + 1 + j2 = i + (j2 + 1) := by omega
        rw [harith] at hrec
        simp only [phf_entries, hb]
        exact hrec
      | some m =>
        have hmem : n ∈ declared_names rest := mem_declared_of_get rest j2 f n hj2 hn
        have hnd' : m ∉ declared_names rest ∧ (declared_names rest).Nodup := by
          simpa [declared_names, List.filterMap_cons, hb, List.nodup_cons] using hnd
        have hmn : ¬ m = n := fun he => hnd'.1 (he ▸ hmem)
        have hrec := ih (i + 1) j2 hnd'.2 hj2
        have harith : i + 1 + j2 = i + (j2 + 1) := by omega
        rw [harith] at hrec
        simp only [phf_entries, hb, lookupName, if_neg hmn]
        exact hrec

lemma field_docs_getElem (base : Config) (fs : List FieldInput) (j : Nat) (f : FieldInput)
    (hj : fs[j]? = some f) : (field_docs base fs)[j]? = some (fieldDoc base f) := by
  simp [field_docs, List.getElem?_map, hj]

/-- C1: for a positionally-discriminated container, the name-keyed query
returns Ok for every declared member name whose resolved documentation
exists, Err NoDocComments for every declared member name without resolved
documentation, Err NoSuchField for every non-member name, and the two error
kinds are distinct. -/
theorem positional_lookup_correct (base : Config) (fs : List FieldInput)
    (hnd : (declared_names fs).Nodup) :
    (∀ (j : Nat) (f : FieldInput) (n : Str), fs[j]? = some f → f.name = some n →
      (∀ d, fieldDoc base f = some d → get_field_docs base fs n = .ok d) ∧
      (fieldDoc base f = none → get_field_docs base fs n = .error (.noDocComments n))) ∧
    (∀ n, n ∉ declared_names fs → get_field_docs base fs n = .error (.noSuchField n)) ∧
    (∀ n m, DocError.noSuchField n ≠ DocError.noDocComments m) := by
  refine ⟨?_, ?_, ?_⟩
  · intro j f n hj hn
    have hidx : documented_get_index fs n = some j := by
      have hl := lookup_phf_some fs n f hn 0 j hnd hj
      simpa [documented_get_index] using hl
    have hdocs := field_docs_getElem base fs j f hj
    constructor
    · intro d hd
      simp only [get_field_docs, hidx, hdocs, hd]
    · intro hd
      simp only [get_field_docs, hidx, hdocs, hd]
  · intro n hn
    have hidx : documented_get_index fs n = none := lookup_phf_none fs n 0 hn
    unfold get_field_docs
    rw [hidx]
  · intro n m h
    exact DocError.noConfusion h

/-- Concrete container of the repository test it_works: two documented
named fields first and second. -/
def fsFoo : List FieldInput :=
  [⟨some (("first").toList), [(("1").toList)], noCustomise⟩,
   ⟨some (("second").toList), [(("2").toList)], noCustomise⟩]

/-- Witness for C1, on the container of the test it_works. -/
theorem positional_lookup_correct_witness :
    (declared_names fsFoo).Nodup ∧
    get_field_docs defaultConfig fsFoo (("first").toList) = .ok (("1").toList) ∧
    get_field_docs defaultConfig fsFoo (("third").toList) =
      .error (.noSuchField (("third").toList)) :=
  ⟨by decide,
   ((positional_lookup_correct defaultConfig fsFoo (by decide)).1 0
      ⟨some (("first").toList), [(("1").toList)], noCustomise⟩ (("first").toList)
      rfl rfl).1 (("1").toList) rfl,
   (positional_lookup_correct defaultConfig fsFoo (by decide)).2.1
      (("third").toList) (by decide)⟩

/-- C8: a container whose members are all unnamed still has one FIELD_DOCS
entry per member in declaration order, but no name is entered in the index,
so every name-keyed query fails with NoSuchField. -/
theorem unnamed_fields_no_index (base : Config) (fs : List FieldInput)
    (h : ∀ f ∈ fs, f.name = none) :
    (field_docs base fs).length = fs.length ∧
    (∀ (j : Nat) (f : FieldInput), fs[j]? = some f → (field_docs base fs)[j]? = some (fieldDoc base f)) ∧
    (∀ n, get_field_docs base fs n = .error (.noSuchField n)) := by
  refine ⟨by simp [field_docs], ?_, ?_⟩
  · intro j f hj
    exact field_docs_getElem base fs j f hj
  · intro n
    have hphf : ∀ i, phf_entries i fs = [] := by
      induction fs with
      | nil => intro i; rfl
      | cons f0 rest ih =>
        intro i
        have h0 : f0.name = none := h f0 (List.mem_cons_self f0 rest)
        simp only [phf_entries, h0]
        exact ih (fun f hf => h f (List.mem_cons_of_mem f0 hf)) (i + 1)
    unfold get_field_docs documented_get_index
    rw [hphf 0]
    rfl

/-- Concrete container of the repository test unnamed_fields: a tuple
struct with three documented unnamed members. -/
def fsTuple : List FieldInput :=
  [⟨none, [(("0").toList)], noCustomise⟩,
   ⟨none, [(("1").toList)], noCustomise⟩,
   ⟨none, [(("2").toList)], noCustomise⟩]

/-- Witness for C8, on the container of the test unnamed_fields. -/
theorem unnamed_fields_no_index_witness :
    (∀ f ∈ fsTuple, f.name = none) ∧
    ((field_docs defaultConfig fsTuple).length = fsTuple.length ∧
     (∀ (j : Nat) (f : FieldInput), fsTuple[j]? = some f →
       (field_docs defaultConfig fsTuple)[j]? = some (fieldDoc defaultConfig f)) ∧
     (∀ n, get_field_docs defaultConfig fsTuple n = .error (.noSuchField n))) :=
  ⟨by decide, unnamed_fields_no_index defaultConfig fsTuple (by decide)⟩

/-- C2: with the resolved trim flag true, normalization strips exactly the
leading and trailing ASCII whitespace of each line independently and joins
the lines with a newline separator, so no line of the output carries leading
or trailing whitespace. -/
theorem trim_normalization (frags : List Str) (h : frags ≠ []) :
    get_docs frags true = some (joinWith '\n' ((linesOf frags).map trimStr)) ∧
    splitOnChar '\n' (joinWith '\n' ((linesOf frags).map trimStr)) =
      (linesOf frags).map trimStr ∧
    ∀ l ∈ splitOnChar '\n' (joinWith '\n' ((linesOf frags).map trimStr)),
      noEdgeWs l = true := by
  have hmap_ne : (linesOf frags).map trimStr ≠ [] := by
    intro hc
    exact linesOf_ne_nil frags h (List.map_eq_nil_iff.mp hc)
  have hno : ∀ p ∈ (linesOf frags).map trimStr, '\n' ∉ p := by
    intro p hp
    rw [List.mem_map] at hp
    obtain ⟨q, hq, rfl⟩ := hp
    intro hmem
    exact linesOf_no_nl frags q hq (mem_trimStr '\n' q hmem)
  have hsj := splitOnChar_joinWith '\n' _ hmap_ne hno
  refine ⟨?_, hsj, ?_⟩
  · cases frags with
    | nil => exact absurd rfl h
    | cons f fr => rfl
  · intro l hl
    rw [hsj, List.mem_map] at hl
    obtain ⟨q, _, rfl⟩ := hl
    exact noEdgeWs_trimStr q

/-- Witness for C2, on the multi-form documentation of the lib.rs example. -/
theorem trim_normalization_witness :
    ([(("Nice.").toList), (("  Multi-line.\n    Indented.  ").toList)] ≠
      ([] : List Str)) ∧
    (get_docs [(("Nice.").toList), (("  Multi-line.\n    Indented.  ").toList)] true =
      some (joinWith '\n'
        ((linesOf [(("Nice.").toList), (("  Multi-line.\n    Indented.  ").toList)]).map trimStr)) ∧
     splitOnChar '\n' (joinWith '\n'
        ((linesOf [(("Nice.").toList), (("  Multi-line.\n    Indented.  ").toList)]).map trimStr)) =
       (linesOf [(("Nice.").toList), (("  Multi-line.\n    Indented.  ").toList)]).map trimStr ∧
     ∀ l ∈ splitOnChar '\n' (joinWith '\n'
        ((linesOf [(("Nice.").toList), (("  Multi-line.\n    Indented.  ").toList)]).map trimStr)),
       noEdgeWs l = true) :=
  ⟨by decide,
   trim_normalization [(("Nice.").toList), (("  Multi-line.\n    Indented.  ").toList)]
     (by decide)⟩

/-- C5: with the resolved trim flag false, normalization is the identity
concatenation, the lines preserved byte for byte and joined by newline. -/
theorem no_trim_identity (frags : List Str) (h : frags ≠ []) :
    get_docs frags false = some (joinWith '\n' frags) ∧
    joinWith '\n' frags = joinWith '\n' (linesOf frags) := by
  refine ⟨?_, (joinWith_linesOf frags).symm⟩
  cases frags with
  | nil => exact absurd rfl h
  | cons f fr => rfl

/-- Witness for C5, on the Delicious example: five leading spaces survive. -/
theorem no_trim_identity_witness :
    ([(("     Delicious.").toList)] ≠ ([] : List Str)) ∧
    (get_docs [(("     Delicious.").toList)] false =
      some (joinWith '\n' [(("     Delicious.").toList)]) ∧
     joinWith '\n' [(("     Delicious.").toList)] =
      joinWith '\n' (linesOf [(("     Delicious.").toList)])) :=
  ⟨by decide, no_trim_identity [(("     Delicious.").toList)] (by decide)⟩

/-- C6: in single-item and whole-container modes an empty documentation
fragment sequence fails at analysis time with the missing-documentation
error, and only then: the normalizer itself reports the empty sequence as an
optional absence, not an error. -/
theorem missing_documentation_iff (frags : List Str) (cu : Customisations)
    (item : ItemInput) (t : Bool) :
    (get_docs frags t = none ↔ frags = []) ∧
    (documented frags cu = .error .missingDocumentation ↔ frags = []) ∧
    (docs_const item cu = .error .missingDocumentation ↔ item.frags = []) := by
  refine ⟨?_, ?_, ?_⟩
  · cases frags with
    | nil => simp [get_docs]
    | cons f fr =>
      constructor
      · intro hc
        exact Option.noConfusion hc
      · intro hc
        exact absurd hc (List.cons_ne_nil f fr)
  · cases frags with
    | nil => simp [documented, get_docs]
    | cons f fr =>
      constructor
      · intro hc
        exact Except.noConfusion hc
      · intro hc
        exact absurd hc (List.cons_ne_nil f fr)
  · rcases item with ⟨iv, inm, frs⟩
    cases frs with
    | nil => simp [docs_const, get_docs]
    | cons f fr =>
      constructor
      · intro hc
        exact Except.noConfusion hc
      · intro hc
        exact absurd hc (List.cons_ne_nil f fr)

lemma dropWhile_congr {α : Type} (p q : α → Bool) (l : List α)
    (h : ∀ c ∈ l, p c = q c) : l.dropWhile p = l.dropWhile q := by
  induction l with
  | nil => rfl
  | cons a l2 ih =>
    have ha : p a = q a := h a (List.mem_cons_self a l2)
    rw [List.dropWhile_cons, List.dropWhile_cons, ha]
    cases hq : q a
    · simp
    · simp only [if_pos]
      exact ih fun c hc => h c (List.mem_cons_of_mem a hc)

/-- Agreement of the two trims on texts whose characters do not distinguish
Unicode whitespace from ASCII whitespace. -/
lemma trimUnicode_eq_trimStr (l : Str) (h : ∀ c ∈ l, isUnicodeWs c = isAsciiWs c) :
    trimUnicode l = trimStr l := by
  have h1 : l.dropWhile isUnicodeWs = l.dropWhile isAsciiWs :=
    dropWhile_congr isUnicodeWs isAsciiWs l h
  have h2 : ∀ c ∈ (trimStart l).reverse, isUnicodeWs c = isAsciiWs c := by
    intro c hc
    exact h c (mem_trimStart c l (List.mem_reverse.mp hc))
  show ((l.dropWhile isUnicodeWs).reverse.dropWhile isUnicodeWs).reverse = trimStr l
  rw [h1]
  show ((trimStart l).reverse.dropWhile isUnicodeWs).reverse = trimStr l
  rw [dropWhile_congr isUnicodeWs isAsciiWs _ h2]
  rfl

/-- C10 counterexample, in two parts. First, a declaration whose single doc
fragment is a multi-line block with an indented second line: both derives
succeed, but the legacy derive trims the literal as a whole and keeps the
inner indentation, while the current derive under the default configuration
trims every line. Second, a single-line fragment ending in NO-BREAK SPACE
U+00A0: the legacy Rust str trim strips it as Unicode whitespace, while the
current ASCII trim of the spec keeps it. -/
theorem legacy_current_divergence :
    legacy_documented [(("  a\n  b").toList)] = .ok (("a\n  b").toList) ∧
    documented [(("  a\n  b").toList)] noCustomise = .ok (("a\nb").toList) ∧
    (("a\n  b").toList) ≠ (("a\nb").toList) ∧
    legacy_documented [(("a\u00A0").toList)] = .ok (("a").toList) ∧
    documented [(("a\u00A0").toList)] noCustomise = .ok (("a\u00A0").toList) ∧
    (("a").toList) ≠ (("a\u00A0").toList) :=
  ⟨rfl, rfl, by decide, rfl, rfl, by decide⟩

/-- C10 as amended: the legacy and the current derive succeed and fail on
exactly the same fragment sequences, and produce an identical string
whenever no fragment contains an embedded newline or any character that is
Unicode whitespace without being ASCII whitespace; on multi-line fragments,
and on fragments edged by Unicode-only whitespace, they may differ. -/
theorem legacy_refines_current (frags : List Str) :
    (legacy_documented frags = .error .missingDocumentation ↔
      documented frags noCustomise = .error .missingDocumentation) ∧
    ((∀ f ∈ frags, '\n' ∉ f ∧ ∀ c ∈ f, isUnicodeWs c = isAsciiWs c) →
      legacy_documented frags = documented frags noCustomise) := by
  constructor
  · cases frags with
    | nil => exact ⟨fun _ => rfl, fun _ => rfl⟩
    | cons f fr =>
      exact ⟨fun hc => Except.noConfusion hc, fun hc => Except.noConfusion hc⟩
  · intro hnl
    cases frags with
    | nil => rfl
    | cons f fr =>
      have hsingle : ∀ g ∈ f :: fr, splitOnChar '\n' g = [g] := fun g hg =>
        splitOnChar_eq_single '\n' g (hnl g hg).1
      have hlines : linesOf (f :: fr) = f :: fr := by
        simp only [linesOf]
        rw [List.map_congr_left hsingle]
        exact flatten_map_singleton (f :: fr)
      have hmap : (f :: fr).map trimUnicode = (f :: fr).map trimStr :=
        List.map_congr_left fun g hg => trimUnicode_eq_trimStr g (hnl g hg).2
      have h1 : legacy_documented (f :: fr) =
          .ok (joinWith '\n' ((f :: fr).map trimUnicode)) := rfl
      have h2 : documented (f :: fr) noCustomise =
          .ok (joinWith '\n' ((linesOf (f :: fr)).map trimStr)) := rfl
      rw [h1, h2, hlines, hmap]

/-- Witness for C10 as amended, on single-line ASCII fragments. -/
theorem legacy_refines_current_witness :
    (∀ f ∈ [(("Nice.").toList), (("Line two.").toList)],
      '\n' ∉ f ∧ ∀ c ∈ f, isUnicodeWs c = isAsciiWs c) ∧
    legacy_documented [(("Nice.").toList), (("Line two.").toList)] =
      documented [(("Nice.").toList), (("Line two.").toList)] noCustomise :=
  ⟨by decide,
   (legacy_refines_current [(("Nice.").toList), (("Line two.").toList)]).2 (by decide)⟩

/-! Lemmas about the tagged decision table. -/

lemma arms_from_length (base : Config) (vs : List VariantInput) :
    ∀ i, (arms_from base i vs).length = vs.length := by
  induction vs with
  | nil => intro i; rfl
  | cons v0 rest ih =>
    intro i
    simp only [arms_from, List.length_cons, ih (i + 1)]

lemma lookup_arms_from (base : Config) (vs : List VariantInput) :
    ∀ (i j : Nat) (h : j < vs.length),
      lookup_arm (arms_from base i vs) (i + j) = some (arm_result base (vs.get ⟨j, h⟩)) := by
  induction vs with
  | nil =>
    intro i j h
    exact absurd h (Nat.not_lt_zero j)
  | cons v0 rest ih =>
    intro i j h
    cases j with
    | zero =>
      simp [arms_from, lookup_arm]
    | succ j2 =>
      have hne : ¬ i = i + (j2 + 1) := by omega
      have h2 : j2 < rest.length := Nat.lt_of_succ_lt_succ h
      have hrec := ih (i + 1) j2 h2
      have harith : i + 1 + j2 = i + (j2 + 1) := by omega
      rw [harith] at hrec
      simp only [arms_from, lookup_arm, if_neg hne]
      exact hrec

/-- C9: the tagged query is total over the variants of its enum: the table
has exactly one arm per declared variant, the arm selected for a variant tag
is the arm of that same variant, yielding Ok of its documentation or Err
NoDocComments of its name, and NoSuchField is unreachable from this query. -/
theorem variants_lookup_total (base : Config) (vs : List VariantInput)
    (v : Fin vs.length) :
    (match_arms base vs).length = vs.length ∧
    get_variant_docs base vs v.1 = some (arm_result base (vs.get v)) ∧
    ((∃ d, variantDoc base (vs.get v) = some d ∧ arm_result base (vs.get v) = .ok d) ∨
     (variantDoc base (vs.get v) = none ∧
      arm_result base (vs.get v) = .error (.noDocComments (vs.get v).name))) ∧
    (∀ n, arm_result base (vs.get v) ≠ .error (.noSuchField n)) := by
  refine ⟨arms_from_length base vs 0, ?_, ?_, ?_⟩
  · have hl := lookup_arms_from base vs 0 v.1 v.2
    simpa [get_variant_docs, match_arms] using hl
  · cases hd : variantDoc base (vs.get v) with
    | some d =>
      exact Or.inl ⟨d, rfl, by unfold arm_result; rw [hd]⟩
    | none =>
      exact Or.inr ⟨rfl, by unfold arm_result; rw [hd]⟩
  · intro n hcontra
    cases hd : variantDoc base (vs.get v) with
    | some d =>
      unfold arm_result at hcontra
      rw [hd] at hcontra
      exact Except.noConfusion hcontra
    | none =>
      unfold arm_result at hcontra
      rw [hd] at hcontra
      injection hcontra with hinner
      exact DocError.noConfusion hinner

/-- Concrete enum of the DocumentedVariants doc example: F3 undocumented,
F6 documented. -/
def vsNeverPlay : List VariantInput :=
  [⟨("F3").toList, [], noCustomise⟩,
   ⟨("F6").toList, [(("I fell out of my chair.").toList)], noCustomise⟩]

/-- Witness for C9, on the NeverPlay enum at the undocumented variant F3. -/
theorem variants_lookup_total_witness :
    0 < vsNeverPlay.length ∧
    get_variant_docs defaultConfig vsNeverPlay 0 =
      some (.error (.noDocComments (("F3").toList))) :=
  ⟨by decide,
   ((variants_lookup_total defaultConfig vsNeverPlay ⟨0, by decide⟩).2.1).trans rfl⟩

/-- C3: resolution is the per-field left-to-right override of Default,
then Container, then Member: a key set at Member scope wins outright; a key
unset at Member scope takes the Container value when set there; a key unset
at both scopes keeps the built-in default, so an unset field never erases a
lower scope. -/
theorem config_resolution_precedence (c m : Customisations) :
    (∀ b, m.trim = some b → (resolve c m).trim = b) ∧
    (m.trim = none → ∀ b, c.trim = some b → (resolve c m).trim = b) ∧
    (m.trim = none → c.trim = none → (resolve c m).trim = defaultConfig.trim) ∧
    (∀ v, m.default_text = some v → (resolve c m).default_text = some v) ∧
    (m.default_text = none → (resolve c m).default_text = c.default_text) ∧
    (∀ v, m.custom_name = some v → (resolve c m).custom_name = some v) ∧
    (m.custom_name = none → (resolve c m).custom_name = c.custom_name) ∧
    (∀ v, m.custom_vis = some v → (resolve c m).custom_vis = some v) ∧
    (m.custom_vis = none → (resolve c m).custom_vis = c.custom_vis) := by
  refine ⟨?_, ?_, ?_, ?_, ?_, ?_, ?_, ?_, ?_⟩
  · intro b hb
    simp [resolve, Config.with_customisations, hb]
  · intro hm b hb
    simp [resolve, Config.with_customisations, hm, hb]
  · intro hm hc
    simp [resolve, Config.with_customisations, hm, hc]
  · intro v hv
    simp [resolve, Config.with_customisations, mergeOpt, hv]
  · intro hm
    cases hc : c.default_text <;>
      simp [resolve, Config.with_customisations, defaultConfig, mergeOpt, hm, hc]
  · intro v hv
    simp [resolve, Config.with_customisations, mergeOpt, hv]
  · intro hm
    cases hc : c.custom_name <;>
      simp [resolve, Config.with_customisations, defaultConfig, mergeOpt, hm, hc]
  · intro v hv
    simp [resolve, Config.with_customisations, mergeOpt, hv]
  · intro hm
    cases hc : c.custom_vis <;>
      simp [resolve, Config.with_customisations, defaultConfig, mergeOpt, hm, hc]

/-- Container scope of the override test: trim false, default Woosh. -/
def contOverride : Customisations :=
  ⟨some false, some (("Woosh").toList), none, none⟩

/-- Member scope of the override test: trim true only. -/
def memberOverride : Customisations :=
  ⟨some true, none, none, none⟩

/-- Witness for C3: the member trim wins over the container trim, and the
container default text survives a member scope that leaves it unset. -/
theorem config_resolution_precedence_witness :
    (resolve contOverride memberOverride).trim = true ∧
    (resolve contOverride memberOverride).default_text = some (("Woosh").toList) :=
  ⟨(config_resolution_precedence contOverride memberOverride).1 true rfl,
   (config_resolution_precedence contOverride memberOverride).2.2.2.2.1 rfl⟩

/-- C7: in single-item mode, the derived binding name defaults to the
upper-snake item name suffixed with _DOCS and the binding visibility
defaults to the item visibility; the name and vis directives override these
defaults when set. -/
theorem docs_const_defaults (item : ItemInput) (cu : Customisations)
    (h : item.frags ≠ []) :
    ∃ v n docs, docs_const item cu = .ok (v, n, docs) ∧
      (cu.custom_vis = none → v = item.vis) ∧
      (∀ vv, cu.custom_vis = some vv → v = vv) ∧
      (cu.custom_name = none → n = toScreamingSnake item.name ++ (("_DOCS").toList)) ∧
      (∀ nn, cu.custom_name = some nn → n = nn) := by
  rcases item with ⟨iv, inm, frs⟩
  cases frs with
  | nil => exact absurd rfl h
  | cons f fr =>
    refine ⟨_, _, _, rfl, ?_, ?_, ?_, ?_⟩
    · intro hcv
      simp [Config.with_customisations, defaultConfig, mergeOpt, hcv]
    · intro vv hcv
      simp [Config.with_customisations, defaultConfig, mergeOpt, hcv]
    · intro hcn
      simp [Config.with_customisations, defaultConfig, mergeOpt, hcn]
    · intro nn hcn
      simp [Config.with_customisations, defaultConfig, mergeOpt, hcn]

/-- Concrete item of the docs_const doc example: a documented function
named test_fn. -/
def itemTestFn : ItemInput :=
  ⟨Vis.inherited, ("test_fn").toList, [(("This is a test function").toList)]⟩

/-- Witness for C7, on the docs_const doc example. -/
theorem docs_const_defaults_witness :
    itemTestFn.frags ≠ [] ∧
    (∃ v n docs, docs_const itemTestFn noCustomise = .ok (v, n, docs) ∧
      (noCustomise.custom_vis = none → v = itemTestFn.vis) ∧
      (∀ vv, noCustomise.custom_vis = some vv → v = vv) ∧
      (noCustomise.custom_name = none →
        n = toScreamingSnake itemTestFn.name ++ (("_DOCS").toList)) ∧
      (∀ nn, noCustomise.custom_name = some nn → n = nn)) :=
  ⟨by decide, docs_const_defaults itemTestFn noCustomise (by decide)⟩

/-- Container-resolved configuration of the repository test default_works:
a default directive set at container scope. -/
def missionBase : Config :=
  defaultConfig.with_customisations ⟨none, some (("Woosh").toList), none, none⟩

/-- Member scope directives of the Touchdown member of the test
default_works: its own default directive. -/
def touchdownCust : Customisations :=
  ⟨none, some (("Boom").toList), none, none⟩

/-- Members of the test default_works, in fields mode: Launch documented,
Boost and Touchdown undocumented. -/
def missionFields : List FieldInput :=
  [⟨some (("Launch").toList), [((" Rumble").toList)], noCustomise⟩,
   ⟨some (("Boost").toList), [], noCustomise⟩,
   ⟨some (("Touchdown").toList), [], touchdownCust⟩]

/-- Variants of the same enum, in tag-discriminated mode. -/
def missionVariants : List VariantInput :=
  [⟨("Launch").toList, [((" Rumble").toList)], noCustomise⟩,
   ⟨("Boost").toList, [], noCustomise⟩,
   ⟨("Touchdown").toList, [], touchdownCust⟩]

/-- C4: evaluation at the failing input of the repository test
default_works. The default directive is set at Container scope, and at
Member scope for Touchdown, and still both the positional and the tagged
query return Err NoDocComments for the undocumented members instead of the
configured default text: the generated code never consults the default
directive, contradicting the spec and the test. -/
theorem default_directive_ignored :
    missionBase.default_text = some (("Woosh").toList) ∧
    (missionBase.with_customisations touchdownCust).default_text =
      some (("Boom").toList) ∧
    get_field_docs missionBase missionFields (("Boost").toList) =
      .error (.noDocComments (("Boost").toList)) ∧
    get_field_docs missionBase missionFields (("Touchdown").toList) =
      .error (.noDocComments (("Touchdown").toList)) ∧
    get_variant_docs missionBase missionVariants 1 =
      some (.error (.noDocComments (("Boost").toList))) :=
  ⟨rfl, rfl, rfl, rfl, rfl⟩

end DocumentedFieldNames
